import Mathlib

/-!
Verification of the singly linked list in `src/structs/singlyLinkedList.ts`.

The list is a pointer structure, so we model it with an explicit node heap:
nodes live in a list indexed by allocation order (`new Node(...)` appends a
fresh node whose id is the current heap size), and every `Node | null`
reference of the source becomes an `Option Nat` of node ids.  Reference
equality (`===`) on nodes becomes equality of ids.  The `#length` field is a
JavaScript number that the source can drive below zero, so it is an `Int`.

The two unbounded `while` loops of the source (`pop`'s new-tail scan and
`removeTail`'s predecessor scan) are modelled by fueled scan functions;
`removeTail`'s scan is exactly the source loop, including the behaviour that a
`null` cursor keeps looping (in JS, `null?.next` is `undefined`, which is
never `===` a node, so the loop body runs forever once the cursor is `null`).
-/

set_option autoImplicit false

universe u

/-- A node of the singly linked list: `data` plus a `next` reference
(`Option Nat` = `Node | null`, as a heap id). -/
structure SNode (α : Type u) where
  data : α
  next : Option Nat
  deriving Repr, DecidableEq

/-- The list state: the node heap (ids are positions; allocation appends),
the `#head` and `#tail` references and the `#length` counter. -/
structure SLL (α : Type u) where
  heap : List (SNode α)
  head : Option Nat
  tail : Option Nat
  length : Int
  deriving Repr, DecidableEq

/-- Dereference `node.next` (absent when the id is not allocated, which cannot
happen for the references the source actually holds). -/
def nextOf {α : Type u} (heap : List (SNode α)) (i : Nat) : Option Nat :=
  (heap.get? i).bind SNode.next

/-- Dereference `node.data`. -/
def dataOf {α : Type u} (heap : List (SNode α)) (i : Nat) : Option α :=
  (heap.get? i).map SNode.data

/-- The heap write `node_i.next = v`. -/
def setNext {α : Type u} : List (SNode α) → Nat → Option Nat → List (SNode α)
  | [], _, _ => []
  | nd :: t, 0, v => { nd with next := v } :: t
  | nd :: t, i+1, v => nd :: setNext t i v

/-- The heap write `node_i.data = d`. -/
def setData {α : Type u} : List (SNode α) → Nat → α → List (SNode α)
  | [], _, _ => []
  | nd :: t, 0, d => { nd with data := d } :: t
  | nd :: t, i+1, d => nd :: setData t i d

namespace SLL

variable {α : Type u}

/-- `new SinglyLinkedList()`. -/
def empty (α : Type u) : SLL α := ⟨[], none, none, 0⟩

/-- `push(data)`: allocate a node; if `head === null` the new node becomes the
head; if `tail !== null` the old tail's `next` is pointed at it; the new node
becomes the tail and `#length` increments. -/
def push (s : SLL α) (d : α) : SLL α :=
  let n := s.heap.length
  let heap1 := s.heap ++ [⟨d, none⟩]
  let head1 := match s.head with
    | none => some n
    | some h => some h
  let heap2 := match s.tail with
    | none => heap1
    | some t => setNext heap1 t (some n)
  ⟨heap2, head1, some n, s.length + 1⟩

/-- The scan loop of `pop`:
`while (newTail.next !== this.#tail && newTail.next !== null) newTail = newTail.next`.
Returns the final `newTail`; `none` only on fuel exhaustion, which cannot
happen on an acyclic heap with the fuel `pop` supplies. -/
def popScan (heap : List (SNode α)) (tgt : Nat) : Nat → Nat → Option Nat
  | _, 0 => none
  | cur, f+1 =>
    match nextOf heap cur with
    | none => some cur
    | some nx => if nx = tgt then some cur else popScan heap tgt nx f

/-- `pop()`: absent on an empty list; the single-node case
(`head === tail && length === 1`) clears both references; otherwise scan for
the node before the tail, sever its `next`, and decrement `#length`.  Note
that the source never reassigns `#tail` in the scan case. -/
def pop (s : SLL α) : Option Nat × SLL α :=
  match s.head, s.tail with
  | none, _ => (none, s)
  | some _, none => (none, s)
  | some h, some t =>
    if h = t ∧ s.length = 1 then
      (some t, { s with head := none, tail := none, length := 0 })
    else
      match popScan s.heap t h (s.heap.length + 1) with
      | none => (none, s)
      | some nt =>
        (some t, { s with heap := setNext s.heap nt none, length := s.length - 1 })

/-- The scan loop of `get`, together with the final value of `counter`:
`while (counter !== index && current !== null) { current = current.next; counter++ }`.
The fuel is `index` itself, since `counter` counts up to it one per iteration. -/
def getAux (heap : List (SNode α)) : Option Nat → Nat → Option Nat × Nat
  | cur, 0 => (cur, 0)
  | none, _+1 => (none, 0)
  | some c, f+1 =>
    let r := getAux heap (nextOf heap c) f
    (r.1, r.2 + 1)

/-- `get(index)`: absent for `index < 0` or `index >= length`; otherwise scan
from the head; the defensive check `if (counter !== index) return null` fires
when the scan ran out of nodes early. -/
def get (s : SLL α) (index : Int) : Option Nat :=
  if index < 0 ∨ s.length ≤ index then none
  else
    let p := getAux s.heap s.head index.toNat
    if (p.2 : Int) = index then p.1 else none

/-- `set(index, data)`: look the node up with `get`; overwrite its `data` on
success. -/
def set (s : SLL α) (index : Int) (d : α) : Bool × SLL α :=
  match s.get index with
  | none => (false, s)
  | some nid => (true, { s with heap := setData s.heap nid d })

/-- `insert(index, data)`: `false` outside `0 ≤ index ≤ length`; at
`index === length` delegate to `push`; at `index === 0` the fresh node points
at the old head and becomes the head; otherwise find the predecessor with
`get(index - 1)` (on the heap that already holds the fresh node, as in the
source) and splice the fresh node after it. -/
def insert (s : SLL α) (index : Int) (d : α) : Bool × SLL α :=
  if index < 0 ∨ s.length < index then (false, s)
  else if index = s.length then (true, s.push d)
  else
    let n := s.heap.length
    let heap1 := s.heap ++ [⟨d, none⟩]
    if index = 0 then
      (true, ⟨setNext heap1 n s.head, some n, s.tail, s.length + 1⟩)
    else
      let s1 : SLL α := { s with heap := heap1 }
      match s1.get (index - 1) with
      | none => (false, s1)
      | some prev =>
        let heap2 := setNext heap1 n (nextOf heap1 prev)
        let heap3 := setNext heap2 prev (some n)
        (true, { s with heap := heap3, length := s.length + 1 })

/-- `remove(index)`: absent outside bounds; at `index === 0` with a non-null
head, advance the head and decrement; otherwise find the predecessor and run
`const node = prevNode.next; prevNode.next = node ?? null; this.#length--`
— note the source assigns `node ?? null`, i.e. the very value `prevNode.next`
already holds, so the chain is not changed. -/
def remove (s : SLL α) (index : Int) : Option Nat × SLL α :=
  if index < 0 ∨ s.length ≤ index then (none, s)
  else if index = 0 ∧ s.head.isSome then
    match s.head with
    | some h => (some h, { s with head := nextOf s.heap h, length := s.length - 1 })
    | none => (none, s)
  else
    match s.get (index - 1) with
    | none => (none, s)
    | some prev =>
      let node := nextOf s.heap prev
      (node, { s with heap := setNext s.heap prev node, length := s.length - 1 })

/-- `removeHead()`: absent on a null head; otherwise return the old head,
advance the head only if it has a successor (`if (this.#head.next !== null)`),
and decrement `#length` unconditionally. -/
def removeHead (s : SLL α) : Option Nat × SLL α :=
  match s.head with
  | none => (none, s)
  | some h =>
    let head1 := match nextOf s.heap h with
      | some nx => some nx
      | none => some h
    (some h, { s with head := head1, length := s.length - 1 })

/-- The scan loop of `removeTail`:
`while (newTail?.next !== oldTail) newTail = newTail?.next ?? null`.
A `none` cursor loops forever (JS: `null?.next` is `undefined`, never `===` a
node), so the scan exits only by finding a node whose `next` is the old tail;
`none` means the fuel ran out without the loop exiting. -/
def removeTailScan (heap : List (SNode α)) (oldT : Nat) : Option Nat → Nat → Option Nat
  | _, 0 => none
  | none, f+1 => removeTailScan heap oldT none f
  | some c, f+1 =>
    if nextOf heap c = some oldT then some c
    else removeTailScan heap oldT (nextOf heap c) f

/-- `removeTail()`: absent when `tail` or `head` is null; otherwise scan for
the predecessor of the tail, make it the new tail with its `next` cleared, and
decrement `#length`.  When the scan loop of the source never exits (e.g. on a
single-node list) the model returns `(none, s)` on fuel exhaustion; theorems
about that situation are stated directly on `removeTailScan`. -/
def removeTail (s : SLL α) : Option Nat × SLL α :=
  match s.tail, s.head with
  | none, _ => (none, s)
  | some _, none => (none, s)
  | some t, some h =>
    match removeTailScan s.heap t (some h) (s.heap.length + 1) with
    | none => (none, s)
    | some nt =>
      (some t, { s with heap := setNext s.heap nt none, tail := some nt,
                        length := s.length - 1 })

/-- Follow `next` from a cursor, collecting ids, mirroring the loop of
`toArray`; `none` when the fuel runs out before reaching `null` (a cycle). -/
def walk (heap : List (SNode α)) : Option Nat → Nat → Option (List Nat)
  | none, _ => some []
  | some _, 0 => none
  | some c, f+1 => (walk heap (nextOf heap c) f).map (fun l => c :: l)

/-- The ids reached by iterating `head → next → … → null`, with enough fuel
for any acyclic heap. -/
def chainOf (s : SLL α) : Option (List Nat) :=
  walk s.heap s.head (s.heap.length + 1)

/-- `toArray()`: the `data` of the nodes reached from the head, in order. -/
def toArray (s : SLL α) : List α :=
  (s.chainOf.getD []).filterMap (dataOf s.heap)

end SLL

/-- `cur` heads a chain of exactly the ids `C`, following `next`, ending at
`null`. -/
def HeapChain {α : Type u} (heap : List (SNode α)) : Option Nat → List Nat → Prop
  | cur, [] => cur = none
  | cur, c :: rest => cur = some c ∧ HeapChain heap (nextOf heap c) rest

/-- The mutating operations that do keep the structure well formed:
`push`, `insert` and `set` (the read-only operations do not change the state). -/
inductive NiceOp (α : Type u) where
  | push (d : α)
  | insert (index : Int) (d : α)
  | set (index : Int) (d : α)

/-- Run a sequence of `push`/`insert`/`set` operations. -/
def runNice {α : Type u} : List (NiceOp α) → SLL α → SLL α
  | [], s => s
  | NiceOp.push d :: ops, s => runNice ops (s.push d)
  | NiceOp.insert i d :: ops, s => runNice ops (s.insert i d).2
  | NiceOp.set i d :: ops, s => runNice ops (s.set i d).2

/-! ## Concrete states used by the claims -/

/-- The list `[1, 2, 3]` built by `push(1); push(2); push(3)`. -/
def sllABC : SLL Int := (((SLL.empty Int).push 1).push 2).push 3

/-- The list `[1, 2]` built by `push(1); push(2)`. -/
def sllTwo : SLL Int := ((SLL.empty Int).push 1).push 2

/-- The single-element list `[5]` built by `push(5)`. -/
def sllFive : SLL Int := (SLL.empty Int).push 5

/-- The state after `push(5); removeHead()`: `#length` is `0` but `#head`
still references the removed node. -/
def sllHeadGone : SLL Int := (sllFive.removeHead).2

/-- The state after `push(5); removeHead(); removeHead()`: the second
`removeHead` sees the dangling head and drives `#length` to `-1`. -/
def sllNeg : SLL Int := (sllHeadGone.removeHead).2

/-- The state after `push(1); push(2); push(3); pop(); push(4); push(5)`:
`pop` never reassigns `#tail`, so the two later pushes append behind the
dangling old tail and are unreachable from the head, leaving `#length = 4`
with only two nodes on the chain. -/
def sllDangle : SLL Int := (((sllABC.pop).2.push 4).push 5)

/-! ## Claim C1 -/

/-- Claim C1 (code bug): the spec says `remove(1)` on `[1,2,3]` splices the
node with data `2` out of the chain, leaving `toArray() = [1,3]`.  The source
executes `prevNode.next = node ?? null` — re-assigning to `prevNode.next` the
value it already holds instead of `node.next` — so `remove(1)` returns the
node with data `2` and decrements `#length` to `2`, but the chain is unchanged
and `toArray()` is still `[1, 2, 3]`. -/
theorem remove_does_not_splice :
    (sllABC.remove 1).1 = some 1 ∧
    dataOf sllABC.heap 1 = some 2 ∧
    (sllABC.remove 1).2.toArray = [1, 2, 3] ∧
    (sllABC.remove 1).2.length = 2 := by decide

/-! ## Claims C2 and C3: `removeTail` diverges on a single-element list -/

/-- On the heap of `[5]` the `removeTail` scan can never exit once the cursor
is `null`: `null?.next` is `undefined`, which is never the old tail. -/
theorem removeTailScan_five_none :
    ∀ fuel : Nat, SLL.removeTailScan sllFive.heap 0 none fuel = none := by
  intro fuel
  induction fuel with
  | zero => rfl
  | succ f ih => simpa [SLL.removeTailScan] using ih

/-- On the single-element list `[5]` no node's `next` is the tail, so the
`removeTail` scan never exits for any fuel: the loop runs forever. -/
theorem removeTailScan_five_diverges :
    ∀ fuel : Nat, SLL.removeTailScan sllFive.heap 0 (some 0) fuel = none := by
  intro fuel
  cases fuel with
  | zero => rfl
  | succ f =>
    have h : nextOf sllFive.heap 0 = (none : Option Nat) := rfl
    simpa [SLL.removeTailScan, h] using removeTailScan_five_none f

/-- Claim C2 (code bug): the spec says every operation is total over its
documented domain, but `removeTail()` on the single-element list `[5]`
(head and tail both the node `0`) never terminates: its scan loop
`while (newTail?.next !== oldTail)` exits for no amount of fuel, because no
node's `next` equals the old tail and a `null` cursor loops forever. -/
theorem removeTail_not_total :
    sllFive.head = some 0 ∧ sllFive.tail = some 0 ∧
    ∀ fuel : Nat, SLL.removeTailScan sllFive.heap 0 (some 0) fuel = none :=
  ⟨rfl, rfl, removeTailScan_five_diverges⟩

/-- Claim C3 (code bug): the spec requires `removeTail()` on `[5]` to return
the node with data `5` and empty the list, but the source's scan loop starting
at the head (node `0`, whose `next` is already `null`) never finds a node
whose `next` is the old tail, so `removeTail()` loops forever instead of
returning. -/
theorem removeTail_single_element_diverges :
    dataOf sllFive.heap 0 = some 5 ∧ sllFive.length = 1 ∧
    sllFive.head = some 0 ∧ sllFive.tail = some 0 ∧
    nextOf sllFive.heap 0 = none ∧
    ∀ fuel : Nat, SLL.removeTailScan sllFive.heap 0 (some 0) fuel = none :=
  ⟨rfl, rfl, rfl, rfl, rfl, removeTailScan_five_diverges⟩

/-! ## Claim C4, counterexample part -/

/-- Claim C4 is false as stated: after `push(5); removeHead()` the counter
`length()` is `0`, but `removeHead` left `#head` pointing at the removed node,
so iterating `head → next → … → absent` still reaches one node. -/
theorem length_invariant_violated :
    sllHeadGone.length = 0 ∧ sllHeadGone.chainOf = some [0] ∧
    ¬ (sllHeadGone.length = ((sllHeadGone.chainOf.getD []).length : Int)) := by
  decide

/-! ## Claim C5 -/

/-- Claim C5 (confirmed): on any list with a non-null head, `removeHead()`
returns the head node and decrements `#length`; the head advances to its
successor when one exists and otherwise stays on the just-removed node. -/
theorem removeHead_behavior :
    ∀ (s : SLL Int) (h : Nat), s.head = some h →
      (s.removeHead).1 = some h ∧
      (s.removeHead).2.length = s.length - 1 ∧
      (∀ nx : Nat, nextOf s.heap h = some nx → (s.removeHead).2.head = some nx) ∧
      (nextOf s.heap h = none → (s.removeHead).2.head = some h) := by
  intro s h hh
  cases hnx : nextOf s.heap h <;>
    simp [SLL.removeHead, hh, hnx]

/-- Witness for C5 at the single-element list `[5]`: the sole node is
returned, the length drops to `0`, and the head is not absent. -/
theorem removeHead_behavior_witness :
    (sllFive.removeHead).1 = some 0 ∧
    (sllFive.removeHead).2.length = sllFive.length - 1 ∧
    (sllFive.removeHead).2.head = some 0 :=
  ⟨(removeHead_behavior sllFive 0 rfl).1,
   (removeHead_behavior sllFive 0 rfl).2.1,
   (removeHead_behavior sllFive 0 rfl).2.2.2 rfl⟩

/-! ## Claim C6 -/

/-- Claim C6 (confirmed): `remove` never writes the `#tail` field, whatever
the state and index; concretely, removing the last element of `[1,2]` by
index returns the node with data `2` while `tail()` still references that
very node. -/
theorem remove_never_updates_tail :
    (∀ (s : SLL Int) (i : Int), (s.remove i).2.tail = s.tail) ∧
    (sllTwo.remove 1).1 = some 1 ∧ (sllTwo.remove 1).2.tail = some 1 ∧
    dataOf sllTwo.heap 1 = some 2 := by
  refine ⟨?_, by decide, by decide, by decide⟩
  intro s i
  unfold SLL.remove
  split
  · rfl
  · split
    · split <;> rfl
    · split
      · rfl
      · rfl

/-! ## Claim C9 -/

/-- Claim C9 is false as stated: `removeHead` can drive `#length` to `-1`
(here after `push(5); removeHead(); removeHead()`), and then
`insert(length(), x)` returns `false` and changes nothing, while `push(x)`
appends — so the two do not agree on every list state. -/
theorem insert_at_length_counterexample :
    sllNeg.length = -1 ∧
    (sllNeg.insert sllNeg.length 7).1 = false ∧
    (sllNeg.insert sllNeg.length 7).2 = sllNeg ∧
    (sllNeg.insert sllNeg.length 7).2 ≠ sllNeg.push 7 := by decide

/-- Claim C9, amended (proved): on every state whose `#length` is not
negative, `insert(length(), x)` takes the delegation branch and returns
`true` with exactly the state `push(x)` produces. -/
theorem insert_at_length_eq_push :
    ∀ (s : SLL Int) (x : Int), 0 ≤ s.length →
      s.insert s.length x = (true, s.push x) := by
  intro s x hx
  unfold SLL.insert
  rw [if_neg, if_pos rfl]
  rintro (h | h) <;> omega

/-- Witness for the amended C9 at the empty list. -/
theorem insert_at_length_eq_push_witness :
    0 ≤ (SLL.empty Int).length ∧
    (SLL.empty Int).insert (SLL.empty Int).length 5 = (true, (SLL.empty Int).push 5) :=
  ⟨by decide, insert_at_length_eq_push (SLL.empty Int) 5 (by decide)⟩

/-! ## Claim C10, counterexample part -/

/-- Claim C10 is false as stated: after
`push(1); push(2); push(3); pop(); push(4); push(5)` (a reachable state —
`pop` severs the chain but never reassigns `#tail`, so the pushes append
behind the dangling old tail), `length()` is `4` yet only two nodes are
reachable from the head; `get(2)` returns absent in bounds, and at `get(3)`
the scan stops with `counter = 2 ≠ 3`, so the defensive branch fires. -/
theorem get_defensive_branch_reachable :
    sllDangle.length = 4 ∧
    sllDangle.chainOf = some [0, 1] ∧
    sllDangle.get 2 = none ∧
    sllDangle.get 3 = none ∧
    (SLL.getAux sllDangle.heap sllDangle.head (Int.toNat 3)).2 = 2 := by decide

/-! ## Claim C7 -/

/-- Claim C7 (confirmed): `set` returns `false` exactly when its `get` lookup
fails (out-of-range index or scan failure) and then changes nothing at all;
`insert` returns `false` exactly when the index is out of `0 ≤ i ≤ length` or
the internal `get(index - 1)` lookup fails, and on a `false` result the head,
tail, length and every existing node are unchanged (the failed interior
branch has only allocated an unlinked garbage node). -/
theorem set_insert_failure_semantics :
    ∀ (s : SLL Int) (i : Int) (d : Int),
      ((s.set i d).1 = false ↔ s.get i = none) ∧
      ((s.set i d).1 = false → (s.set i d).2 = s) ∧
      ((s.insert i d).1 = false ↔
        (i < 0 ∨ s.length < i ∨
          (0 ≤ i ∧ i < s.length ∧ i ≠ 0 ∧
            SLL.get { s with heap := s.heap ++ [⟨d, none⟩] } (i - 1) = none))) ∧
      ((s.insert i d).1 = false →
        ((s.insert i d).2.head = s.head ∧ (s.insert i d).2.tail = s.tail ∧
         (s.insert i d).2.length = s.length ∧
         ∀ k : Nat, k < s.heap.length → (s.insert i d).2.heap[k]? = s.heap[k]?)) := by
  intro s i d
  refine ⟨?_, ?_, ?_, ?_⟩
  · cases hg : s.get i <;> simp [SLL.set, hg]
  · cases hg : s.get i <;> simp [SLL.set, hg]
  · unfold SLL.insert
    by_cases h1 : i < 0 ∨ s.length < i
    · rw [if_pos h1]
      simp only [true_iff]
      rcases h1 with h | h
      · exact Or.inl h
      · exact Or.inr (Or.inl h)
    · rw [if_neg h1]
      push_neg at h1
      by_cases h2 : i = s.length
      · rw [if_pos h2]
        simp only [Bool.true_eq_false, false_iff]
        rintro (h | h | ⟨_, h, _, _⟩) <;> omega
      · rw [if_neg h2]
        by_cases h3 : i = 0
        · rw [if_pos h3]
          simp only [Bool.true_eq_false, false_iff]
          rintro (h | h | ⟨_, _, h, _⟩) <;> omega
        · rw [if_neg h3]
          simp only
          cases hg : SLL.get { s with heap := s.heap ++ [⟨d, none⟩] } (i - 1) with
          | none =>
            simp only [hg, true_iff]
            exact Or.inr (Or.inr ⟨h1.1, lt_of_le_of_ne h1.2 h2, h3, trivial⟩)
          | some prev =>
            simp only [hg, Bool.true_eq_false, false_iff]
            rintro (h | h | ⟨_, _, _, h⟩)
            · omega
            · omega
            · exact Option.noConfusion h
  · unfold SLL.insert
    by_cases h1 : i < 0 ∨ s.length < i
    · rw [if_pos h1]
      exact fun _ => ⟨rfl, rfl, rfl, fun k _ => rfl⟩
    · rw [if_neg h1]
      by_cases h2 : i = s.length
      · rw [if_pos h2]; intro h; exact absurd h (by simp)
      · rw [if_neg h2]
        by_cases h3 : i = 0
        · rw [if_pos h3]; intro h; exact absurd h (by simp)
        · rw [if_neg h3]
          simp only
          cases hg : SLL.get { s with heap := s.heap ++ [⟨d, none⟩] } (i - 1) with
          | none =>
            simp only [hg]
            intro _
            refine ⟨by trivial, by trivial, by trivial, fun k hk => ?_⟩
            exact List.getElem?_append_left hk
          | some prev =>
            simp only [hg]
            intro h; exact absurd h (by simp)

/-- Witness for C7: `set(5, _)` on `[1,2]` fails and changes nothing, and
`insert(3, _)` on the dangling-tail state fails through the interior lookup
while leaving the length unchanged. -/
theorem set_insert_failure_semantics_witness :
    (sllTwo.set 5 9).1 = false ∧ (sllTwo.set 5 9).2 = sllTwo ∧
    (sllDangle.insert 3 9).1 = false ∧
    (sllDangle.insert 3 9).2.length = sllDangle.length := by
  have T1 := set_insert_failure_semantics sllTwo 5 9
  have T2 := set_insert_failure_semantics sllDangle 3 9
  have hf1 : (sllTwo.set 5 9).1 = false := T1.1.mpr (by decide)
  have hf2 : (sllDangle.insert 3 9).1 = false :=
    T2.2.2.1.mpr (Or.inr (Or.inr ⟨by decide, by decide, by decide, by decide⟩))
  exact ⟨hf1, T1.2.1 hf1, hf2, (T2.2.2.2 hf2).2.2.1⟩

/-! ## Heap access lemmas -/

theorem length_setNext {α : Type u} (heap : List (SNode α)) (i : Nat) (v : Option Nat) :
    (setNext heap i v).length = heap.length := by
  induction heap generalizing i with
  | nil => rfl
  | cons nd t ih => cases i <;> simp [setNext, ih]

theorem length_setData {α : Type u} (heap : List (SNode α)) (i : Nat) (d : α) :
    (setData heap i d).length = heap.length := by
  induction heap generalizing i with
  | nil => rfl
  | cons nd t ih => cases i <;> simp [setData, ih]

theorem getElem?_setNext {α : Type u} (heap : List (SNode α)) (i j : Nat) (v : Option Nat) :
    (setNext heap i v)[j]? =
      if j = i then (heap[i]?).map (fun nd => { nd with next := v }) else heap[j]? := by
  induction heap generalizing i j with
  | nil => simp [setNext]
  | cons nd t ih =>
    cases i with
    | zero => cases j <;> simp [setNext]
    | succ i =>
      cases j with
      | zero => simp [setNext]
      | succ j => simpa [setNext, Nat.succ_ne_zero] using ih i j

theorem getElem?_setData {α : Type u} (heap : List (SNode α)) (i j : Nat) (d : α) :
    (setData heap i d)[j]? =
      if j = i then (heap[i]?).map (fun nd => { nd with data := d }) else heap[j]? := by
  induction heap generalizing i j with
  | nil => simp [setData]
  | cons nd t ih =>
    cases i with
    | zero => cases j <;> simp [setData]
    | succ i =>
      cases j with
      | zero => simp [setData]
      | succ j => simpa [setData, Nat.succ_ne_zero] using ih i j

theorem nextOf_setNext_self {α : Type u} {heap : List (SNode α)} {i : Nat} (v : Option Nat)
    (h : i < heap.length) : nextOf (setNext heap i v) i = v := by
  have hnd : heap[i]? = some heap[i] := List.getElem?_eq_getElem h
  simp [nextOf, getElem?_setNext, hnd]

theorem nextOf_setNext_ne {α : Type u} (heap : List (SNode α)) {i j : Nat} (v : Option Nat)
    (h : j ≠ i) : nextOf (setNext heap i v) j = nextOf heap j := by
  simp [nextOf, getElem?_setNext, h]

theorem dataOf_setNext {α : Type u} (heap : List (SNode α)) (i j : Nat) (v : Option Nat) :
    dataOf (setNext heap i v) j = dataOf heap j := by
  simp only [dataOf, List.get?_eq_getElem?, getElem?_setNext]
  split
  · next h => subst h; cases heap[j]? <;> rfl
  · rfl

theorem nextOf_setData {α : Type u} (heap : List (SNode α)) (i j : Nat) (d : α) :
    nextOf (setData heap i d) j = nextOf heap j := by
  simp only [nextOf, List.get?_eq_getElem?, getElem?_setData]
  split
  · next h => subst h; cases heap[j]? <;> rfl
  · rfl

theorem nextOf_append {α : Type u} (heap l : List (SNode α)) {j : Nat}
    (h : j < heap.length) : nextOf (heap ++ l) j = nextOf heap j := by
  simp [nextOf, List.getElem?_append_left h]

theorem dataOf_append {α : Type u} (heap l : List (SNode α)) {j : Nat}
    (h : j < heap.length) : dataOf (heap ++ l) j = dataOf heap j := by
  simp [dataOf, List.getElem?_append_left h]

theorem nextOf_concat_self {α : Type u} (heap : List (SNode α)) (d : α) (v : Option Nat) :
    nextOf (heap ++ [⟨d, v⟩]) heap.length = v := by
  simp [nextOf, List.getElem?_concat_length]

theorem dataOf_concat_self {α : Type u} (heap : List (SNode α)) (d : α) (v : Option Nat) :
    dataOf (heap ++ [⟨d, v⟩]) heap.length = some d := by
  simp [dataOf, List.getElem?_concat_length]

theorem setNext_noop {α : Type u} {heap : List (SNode α)} {i : Nat}
    (h : nextOf heap i = none) : setNext heap i none = heap := by
  induction heap generalizing i with
  | nil => rfl
  | cons nd t ih =>
    cases i with
    | zero =>
      simp only [nextOf, List.getElem?_cons_zero, Option.bind_some] at h
      simp only [setNext]
      cases nd with
      | mk d nx => simp_all
    | succ i =>
      simp only [nextOf, List.getElem?_cons_succ] at h
      simp [setNext, ih h]

theorem setNext_setNext {α : Type u} (heap : List (SNode α)) (i : Nat) (v w : Option Nat) :
    setNext (setNext heap i v) i w = setNext heap i w := by
  induction heap generalizing i with
  | nil => rfl
  | cons nd t ih => cases i <;> simp [setNext, ih]

/-! ## Chain lemmas -/

theorem heapChain_nil {α : Type u} {heap : List (SNode α)} {cur : Option Nat} :
    HeapChain heap cur [] ↔ cur = none := Iff.rfl

theorem heapChain_cons {α : Type u} {heap : List (SNode α)} {cur : Option Nat}
    {c : Nat} {C : List Nat} :
    HeapChain heap cur (c :: C) ↔ cur = some c ∧ HeapChain heap (nextOf heap c) C := Iff.rfl

theorem heapChain_of_walk {α : Type u} {heap : List (SNode α)} :
    ∀ {fuel : Nat} {cur : Option Nat} {C : List Nat},
      SLL.walk heap cur fuel = some C → HeapChain heap cur C := by
  intro fuel
  induction fuel with
  | zero =>
    intro cur C h
    cases cur with
    | none =>
      simp only [SLL.walk] at h
      cases h; exact rfl
    | some c => exact absurd h (by simp [SLL.walk])
  | succ f ih =>
    intro cur C h
    cases cur with
    | none =>
      simp only [SLL.walk] at h
      cases h; exact rfl
    | some c =>
      simp only [SLL.walk, Option.map_eq_some'] at h
      obtain ⟨C', hC', rfl⟩ := h
      exact ⟨rfl, ih hC'⟩

theorem walk_of_heapChain {α : Type u} {heap : List (SNode α)} :
    ∀ {C : List Nat} {cur : Option Nat} {fuel : Nat},
      HeapChain heap cur C → C.length ≤ fuel → SLL.walk heap cur fuel = some C := by
  intro C
  induction C with
  | nil =>
    intro cur fuel h _
    rw [h]
    cases fuel <;> rfl
  | cons c C ih =>
    intro cur fuel h hf
    obtain ⟨rfl, hrest⟩ := h
    cases fuel with
    | zero => exact absurd hf (by simp)
    | succ f =>
      simp only [SLL.walk, ih hrest (by simpa using hf), Option.map_some']

theorem heapChain_setNext_not_mem {α : Type u} {heap : List (SNode α)} {i : Nat}
    {v : Option Nat} :
    ∀ {C : List Nat} {cur : Option Nat},
      HeapChain heap cur C → i ∉ C → HeapChain (setNext heap i v) cur C := by
  intro C
  induction C with
  | nil => intro cur h _; exact h
  | cons c C ih =>
    intro cur h hmem
    obtain ⟨rfl, hrest⟩ := h
    have hci : c ≠ i := fun hc => hmem (hc ▸ List.mem_cons_self c C)
    refine ⟨rfl, ?_⟩
    rw [nextOf_setNext_ne heap v hci]
    exact ih hrest (fun hi => hmem (List.mem_cons_of_mem c hi))

theorem heapChain_setData {α : Type u} {heap : List (SNode α)} {i : Nat} {d : α} :
    ∀ {C : List Nat} {cur : Option Nat},
      HeapChain heap cur C → HeapChain (setData heap i d) cur C := by
  intro C
  induction C with
  | nil => intro cur h; exact h
  | cons c C ih =>
    intro cur h
    obtain ⟨rfl, hrest⟩ := h
    exact ⟨rfl, by rw [nextOf_setData]; exact ih hrest⟩

theorem heapChain_append {α : Type u} {heap l : List (SNode α)} :
    ∀ {C : List Nat} {cur : Option Nat},
      HeapChain heap cur C → (∀ c ∈ C, c < heap.length) →
      HeapChain (heap ++ l) cur C := by
  intro C
  induction C with
  | nil => intro cur h _; exact h
  | cons c C ih =>
    intro cur h hb
    obtain ⟨rfl, hrest⟩ := h
    refine ⟨rfl, ?_⟩
    rw [nextOf_append heap l (hb c (List.mem_cons_self c C))]
    exact ih hrest (fun x hx => hb x (List.mem_cons_of_mem c hx))

theorem heapChain_next_mem {α : Type u} {heap : List (SNode α)} :
    ∀ {C : List Nat} {cur : Option Nat},
      HeapChain heap cur C → ∀ x ∈ C,
        nextOf heap x = none ∨ ∃ y ∈ C, nextOf heap x = some y := by
  intro C
  induction C with
  | nil => intro cur _ x hx; exact absurd hx (List.not_mem_nil x)
  | cons c C ih =>
    intro cur h x hx
    obtain ⟨rfl, hrest⟩ := h
    rcases List.mem_cons.1 hx with rfl | hx'
    · cases hC : C with
      | nil => rw [hC] at hrest; exact Or.inl hrest
      | cons y C' =>
        rw [hC] at hrest
        exact Or.inr ⟨y, List.mem_cons_of_mem x (hC ▸ List.mem_cons_self y C'),
          hrest.1 ▸ rfl⟩
    · rcases ih hrest x hx' with h1 | ⟨y, hy, h2⟩
      · exact Or.inl h1
      · exact Or.inr ⟨y, List.mem_cons_of_mem c hy, h2⟩

theorem heapChain_getLast?_next {α : Type u} {heap : List (SNode α)} :
    ∀ {C : List Nat} {cur : Option Nat} {t : Nat},
      HeapChain heap cur C → C.getLast? = some t → nextOf heap t = none := by
  intro C
  induction C with
  | nil => intro cur t _ h; exact absurd h (by simp)
  | cons c C ih =>
    intro cur t h hlast
    obtain ⟨rfl, hrest⟩ := h
    cases C with
    | nil =>
      simp only [List.getLast?_singleton] at hlast
      cases hlast
      exact hrest
    | cons y C' =>
      rw [List.getLast?_cons_cons] at hlast
      exact ih hrest hlast

theorem mem_of_getLast?_eq {β : Type u} {l : List β} {t : β} (h : l.getLast? = some t) :
    t ∈ l := by
  obtain ⟨hne, rfl⟩ :=
    List.mem_getLast?_eq_getLast (x := t) (by simpa [Option.mem_def] using h)
  exact List.getLast_mem hne

theorem nodup_bounded_length_le {C : List Nat} {m : Nat} (hnodup : C.Nodup)
    (hb : ∀ c ∈ C, c < m) : C.length ≤ m := by
  have h1 : C.toFinset.card = C.length := List.toFinset_card_of_nodup hnodup
  have h2 : C.toFinset ⊆ Finset.range m :=
    fun x hx => Finset.mem_range.2 (hb x (List.mem_toFinset.1 hx))
  have h3 := Finset.card_le_card h2
  rw [h1, Finset.card_range] at h3
  exact h3

theorem heapChain_snoc {α : Type u} {heap : List (SNode α)} {n : Nat} :
    ∀ {C : List Nat} {cur : Option Nat} {t : Nat},
      HeapChain heap cur C → C.Nodup → C.getLast? = some t → t < heap.length →
      n ∉ C → nextOf heap n = none →
      HeapChain (setNext heap t (some n)) cur (C ++ [n]) := by
  intro C
  induction C with
  | nil => intro cur t _ _ h _ _ _; exact absurd h (by simp)
  | cons c C ih =>
    intro cur t hC hnodup hlast ht hnn hnext
    obtain ⟨rfl, hrest⟩ := hC
    have hcn : c ≠ n := fun h => hnn (h ▸ List.mem_cons_self c C)
    cases C with
    | nil =>
      simp only [List.getLast?_singleton] at hlast
      cases hlast
      refine ⟨rfl, ?_⟩
      rw [nextOf_setNext_self (some n) ht]
      refine ⟨rfl, ?_⟩
      rw [nextOf_setNext_ne heap (some n) hcn.symm]
      exact hnext
    | cons y C' =>
      have hlast' : (y :: C').getLast? = some t := by
        rw [List.getLast?_cons_cons] at hlast; exact hlast
      have htmem : t ∈ y :: C' := mem_of_getLast?_eq hlast'
      have hct : c ≠ t := fun h => (List.nodup_cons.1 hnodup).1 (h ▸ htmem)
      refine ⟨rfl, ?_⟩
      rw [nextOf_setNext_ne heap (some n) hct]
      exact ih hrest (List.nodup_cons.1 hnodup).2 hlast' ht
        (fun h => hnn (List.mem_cons_of_mem c h)) hnext

theorem getAux_heapChain {α : Type u} (heap : List (SNode α)) :
    ∀ {k : Nat} {C : List Nat} {cur : Option Nat},
      HeapChain heap cur C → k < C.length →
      SLL.getAux heap cur k = (C[k]?, k) := by
  intro k
  induction k with
  | zero =>
    intro C cur hC hk
    cases C with
    | nil => exact absurd hk (by simp)
    | cons c C =>
      obtain ⟨rfl, _⟩ := hC
      simp [SLL.getAux]
  | succ k ih =>
    intro C cur hC hk
    cases C with
    | nil => exact absurd hk (by simp)
    | cons c C =>
      obtain ⟨rfl, hrest⟩ := hC
      have hk' : k < C.length := by simpa using hk
      simp [SLL.getAux, ih hrest hk']

theorem get_heapChain {α : Type u} {s : SLL α} {C : List Nat}
    (hC : HeapChain s.heap s.head C) (hlen : s.length = (C.length : Int))
    {i : Int} (h0 : 0 ≤ i) (hi : i < s.length) :
    s.get i = C[i.toNat]? ∧ (SLL.getAux s.heap s.head i.toNat).2 = i.toNat := by
  have hk : i.toNat < C.length := by omega
  have haux := getAux_heapChain s.heap hC hk
  have hnb : ¬(i < 0 ∨ s.length ≤ i) := by omega
  constructor
  · rw [SLL.get, if_neg hnb]
    simp only [haux]
    rw [if_pos (by omega)]
  · rw [haux]

theorem mem_of_getElem?_eq {β : Type u} :
    ∀ {l : List β} {k : Nat} {x : β}, l[k]? = some x → x ∈ l := by
  intro l
  induction l with
  | nil => intro k x h; simp at h
  | cons c l ih =>
    intro k x h
    cases k with
    | zero =>
      simp only [List.getElem?_cons_zero] at h
      cases h
      exact List.mem_cons_self c l
    | succ k =>
      simp only [List.getElem?_cons_succ] at h
      exact List.mem_cons_of_mem c (ih h)

theorem heapChain_splice {α : Type u} {heap : List (SNode α)} {n : Nat}
    (hn : n < heap.length) :
    ∀ {C : List Nat} {cur : Option Nat} {k : Nat} {prev : Nat},
      HeapChain heap cur C → C.Nodup → C[k]? = some prev →
      (∀ c ∈ C, c < heap.length) → n ∉ C →
      HeapChain (setNext (setNext heap n (nextOf heap prev)) prev (some n)) cur
        (C.take (k+1) ++ n :: C.drop (k+1)) := by
  intro C
  induction C with
  | nil => intro cur k prev _ _ h _ _; simp at h
  | cons c C ih =>
    intro cur k prev hC hnodup hk hb hnn
    obtain ⟨rfl, hrest⟩ := hC
    have hcn : c ≠ n := fun h => hnn (h ▸ List.mem_cons_self c C)
    have hlen : (setNext heap n (nextOf heap prev)).length = heap.length :=
      length_setNext heap n (nextOf heap prev)
    cases k with
    | zero =>
      simp only [List.getElem?_cons_zero] at hk
      cases hk
      simp only [List.take_succ_cons, List.take_zero, List.drop_succ_cons, List.drop_zero,
        List.cons_append, List.nil_append]
      refine ⟨rfl, ?_⟩
      rw [nextOf_setNext_self (some n) (by rw [hlen]; exact hb c (List.mem_cons_self c C))]
      refine ⟨rfl, ?_⟩
      rw [nextOf_setNext_ne _ (some n) hcn.symm, nextOf_setNext_self (nextOf heap c) hn]
      have hnotC : n ∉ C := fun h => hnn (List.mem_cons_of_mem c h)
      have hcC : c ∉ C := (List.nodup_cons.1 hnodup).1
      exact heapChain_setNext_not_mem (heapChain_setNext_not_mem hrest hnotC) hcC
    | succ k =>
      simp only [List.getElem?_cons_succ] at hk
      have hprevC : prev ∈ C := mem_of_getElem?_eq hk
      have hcprev : c ≠ prev := fun h => (List.nodup_cons.1 hnodup).1 (h ▸ hprevC)
      simp only [List.take_succ_cons, List.drop_succ_cons, List.cons_append]
      refine ⟨rfl, ?_⟩
      rw [nextOf_setNext_ne _ (some n) hcprev, nextOf_setNext_ne _ _ hcn]
      exact ih hrest (List.nodup_cons.1 hnodup).2 hk
        (fun x hx => hb x (List.mem_cons_of_mem c hx))
        (fun h => hnn (List.mem_cons_of_mem c h))

/-! ## The invariant preserved by push, insert and set -/

/-- Well-formedness: the head starts a duplicate-free chain of valid ids whose
count is `#length` and whose last node (if any) is `#tail`. -/
def NiceInv {α : Type u} (s : SLL α) : Prop :=
  ∃ C : List Nat, HeapChain s.heap s.head C ∧ C.Nodup ∧
    (∀ c ∈ C, c < s.heap.length) ∧ s.length = (C.length : Int) ∧ s.tail = C.getLast?

theorem niceInv_empty (α : Type u) : NiceInv (SLL.empty α) :=
  ⟨[], rfl, List.nodup_nil, by simp, rfl, rfl⟩

theorem niceInv_push {α : Type u} (s : SLL α) (d : α) (h : NiceInv s) :
    NiceInv (s.push d) := by
  obtain ⟨C, hC, hnodup, hb, hlen, htail⟩ := h
  cases hT : C.getLast? with
  | none =>
    have hCnil : C = [] := List.getLast?_eq_none_iff.1 hT
    subst hCnil
    have hhead : s.head = none := hC
    have htail' : s.tail = none := by rw [htail, hT]
    refine ⟨[s.heap.length], ?_, List.nodup_singleton _, ?_, ?_, ?_⟩
    · simp only [SLL.push, hhead, htail']
      exact ⟨rfl, nextOf_concat_self s.heap d none⟩
    · intro c hc
      simp only [List.mem_singleton] at hc
      subst hc
      simp [SLL.push, hhead, htail']
    · simp only [SLL.push, hhead, htail']
      simp only [List.length_singleton, Nat.cast_one]
      rw [hlen]; simp
    · simp [SLL.push, hhead, htail']
  | some t =>
    cases hCc : C with
    | nil => rw [hCc] at hT; simp at hT
    | cons c C' =>
      rw [hCc] at hC hnodup hb hlen hT htail
      have hhead : s.head = some c := hC.1
      rw [hhead] at hC
      have htail' : s.tail = some t := by rw [htail, hT]
      have htmem : t ∈ c :: C' := mem_of_getLast?_eq hT
      have htb : t < s.heap.length := hb t htmem
      have hnn : s.heap.length ∉ c :: C' := fun hmem => lt_irrefl _ (hb _ hmem)
      refine ⟨(c :: C') ++ [s.heap.length], ?_, ?_, ?_, ?_, ?_⟩
      · simp only [SLL.push, hhead, htail']
        exact heapChain_snoc (heapChain_append hC hb) hnodup hT
          (by simpa using Nat.lt_succ_of_lt htb) hnn
          (nextOf_concat_self s.heap d none)
      · simpa [List.concat_eq_append] using hnodup.concat hnn
      · intro x hx
        simp only [SLL.push, hhead, htail', length_setNext, List.length_append,
          List.length_singleton]
        rcases List.mem_append.1 hx with hx | hx
        · exact Nat.lt_succ_of_lt (hb x hx)
        · simp only [List.mem_singleton] at hx
          subst hx
          exact Nat.lt_succ_self _
      · simp only [SLL.push]
        rw [hlen]
        simp
      · simp only [SLL.push, hhead, htail', List.getLast?_concat]

theorem niceInv_set {α : Type u} (s : SLL α) (i : Int) (d : α) (h : NiceInv s) :
    NiceInv (s.set i d).2 := by
  obtain ⟨C, hC, hnodup, hb, hlen, htail⟩ := h
  cases hg : s.get i with
  | none => simpa [SLL.set, hg] using ⟨C, hC, hnodup, hb, hlen, htail⟩
  | some nid =>
    refine ⟨C, ?_, hnodup, ?_, ?_, ?_⟩
    · simp only [SLL.set, hg]
      exact heapChain_setData hC
    · intro x hx
      simpa [SLL.set, hg, length_setData] using hb x hx
    · simpa [SLL.set, hg] using hlen
    · simpa [SLL.set, hg] using htail

theorem niceInv_insert {α : Type u} (s : SLL α) (i : Int) (d : α) (h : NiceInv s) :
    NiceInv (s.insert i d).2 := by
  obtain ⟨C, hC, hnodup, hb, hlen, htail⟩ := h
  by_cases h1 : i < 0 ∨ s.length < i
  · unfold SLL.insert
    rw [if_pos h1]
    exact ⟨C, hC, hnodup, hb, hlen, htail⟩
  · push_neg at h1
    by_cases h2 : i = s.length
    · unfold SLL.insert
      rw [if_neg (by omega), if_pos h2]
      exact niceInv_push s d ⟨C, hC, hnodup, hb, hlen, htail⟩
    · by_cases h3 : i = 0
      · have hlen0 : C ≠ [] := by
          intro hE
          rw [hE] at hlen
          simp at hlen
          omega
        obtain ⟨c, C', rfl⟩ := List.exists_cons_of_ne_nil hlen0
        have hhead : s.head = some c := hC.1
        rw [hhead] at hC
        have hnn : s.heap.length ∉ c :: C' := fun hmem => lt_irrefl _ (hb _ hmem)
        unfold SLL.insert
        rw [if_neg (by omega), if_neg h2, if_pos h3]
        refine ⟨s.heap.length :: c :: C', ?_, ?_, ?_, ?_, ?_⟩
        · refine ⟨rfl, ?_⟩
          rw [hhead]
          rw [nextOf_setNext_self (some c) (by simp)]
          exact heapChain_setNext_not_mem (heapChain_append hC hb) hnn
        · exact List.nodup_cons.2 ⟨hnn, hnodup⟩
        · intro x hx
          simp only [length_setNext, List.length_append, List.length_singleton]
          rcases List.mem_cons.1 hx with rfl | hx'
          · exact Nat.lt_succ_self _
          · exact Nat.lt_succ_of_lt (hb x hx')
        · rw [hlen]; simp
        · rw [htail, List.getLast?_cons_cons]
      · -- interior insert: 0 < i < length
        have hik : 1 ≤ i := by omega
        have hilt : i < s.length := by omega
        set k : Nat := (i - 1).toNat with hk
        have hkC : k < C.length := by omega
        have hk1 : k + 1 < C.length := by omega
        set heap1 : List (SNode α) := s.heap ++ [⟨d, none⟩] with hheap1
        have hC1 : HeapChain heap1 s.head C := heapChain_append hC hb
        have hb1 : ∀ c ∈ C, c < heap1.length := by
          intro x hx
          simp only [hheap1, List.length_append, List.length_singleton]
          exact Nat.lt_succ_of_lt (hb x hx)
        obtain ⟨prev, hprev⟩ : ∃ prev, C[k]? = some prev :=
          ⟨C[k], List.getElem?_eq_getElem hkC⟩
        have hget : SLL.get { s with heap := heap1 } (i - 1) = some prev := by
          have := (get_heapChain (s := { s with heap := heap1 }) (C := C) hC1
            (by simpa using hlen) (i := i - 1) (by omega) (by simpa using by omega)).1
          rw [this, show (i - 1).toNat = k from rfl, hprev]
        have hnn : s.heap.length ∉ C := fun hmem => lt_irrefl _ (hb _ hmem)
        have hprevmem : prev ∈ C := mem_of_getElem?_eq hprev
        unfold SLL.insert
        rw [if_neg (by omega), if_neg h2, if_neg h3]
        simp only [← hheap1, hget]
        have hnlt : s.heap.length < heap1.length := by simp [hheap1]
        refine ⟨C.take (k+1) ++ s.heap.length :: C.drop (k+1), ?_, ?_, ?_, ?_, ?_⟩
        · exact heapChain_splice hnlt hC1 hnodup hprev hb1 hnn
        · have hperm : List.Perm (C.take (k+1) ++ s.heap.length :: C.drop (k+1))
              (s.heap.length :: (C.take (k+1) ++ C.drop (k+1))) := List.perm_middle
          rw [hperm.nodup_iff]
          rw [List.take_append_drop]
          exact List.nodup_cons.2 ⟨hnn, hnodup⟩
        · intro x hx
          simp only [length_setNext, hheap1, List.length_append, List.length_singleton]
          rcases List.mem_append.1 hx with hx' | hx'
          · exact Nat.lt_succ_of_lt (hb x (List.mem_of_mem_take hx'))
          · rcases List.mem_cons.1 hx' with rfl | hx''
            · exact Nat.lt_succ_self _
            · exact Nat.lt_succ_of_lt (hb x (List.mem_of_mem_drop hx''))
        · simp only [List.length_append, List.length_cons, List.length_take]
          rw [hlen]
          have : min (k+1) C.length = k + 1 := by omega
          rw [this, List.length_drop]
          push_cast
          omega
        · have hdne : C.drop (k+1) ≠ [] := by
            intro hE
            have := List.length_drop (k+1) C
            rw [hE] at this
            simp at this
            omega
          rw [htail]
          rw [List.getLast?_append_of_ne_nil _ (by simp)]
          obtain ⟨y, ys, hys⟩ := List.exists_cons_of_ne_nil hdne
          rw [hys, List.getLast?_cons_cons, ← hys,
            ← List.getLast?_append_of_ne_nil (C.take (k+1)) hdne,
            List.take_append_drop]

theorem niceInv_runNice {α : Type u} :
    ∀ (ops : List (NiceOp α)) (s : SLL α), NiceInv s → NiceInv (runNice ops s) := by
  intro ops
  induction ops with
  | nil => intro s h; exact h
  | cons op ops ih =>
    intro s h
    cases op with
    | push d => exact ih _ (niceInv_push s d h)
    | insert i d => exact ih _ (niceInv_insert s i d h)
    | set i d => exact ih _ (niceInv_set s i d h)

/-! ## Claim C4, amended part -/

/-- Claim C4, amended (proved): after any finite sequence of `push`, `insert`
and `set` operations from the empty list (the read-only operations do not
change the state), `length()` equals the number of nodes reached by iterating
`head → next → … → absent`.  The counterexample theorem shows the claim fails
once `removeHead` (or `pop`/`remove`) joins the sequence. -/
theorem length_invariant_nice_ops :
    ∀ ops : List (NiceOp Int),
      ∃ C : List Nat, (runNice ops (SLL.empty Int)).chainOf = some C ∧
        (runNice ops (SLL.empty Int)).length = (C.length : Int) := by
  intro ops
  obtain ⟨C, hC, hnodup, hb, hlen, _⟩ := niceInv_runNice ops _ (niceInv_empty Int)
  exact ⟨C, walk_of_heapChain hC
    (le_trans (nodup_bounded_length_le hnodup hb) (Nat.le_succ _)), hlen⟩

/-! ## Claim C10, amended part -/

/-- Claim C10, amended (proved): in every state reachable from the empty list
by `push`, `insert` and `set`, `get(i)` returns a node for `0 ≤ i < length()`
and the scan counter reaches `i`, so the defensive branch does not fire; the
counterexample theorem shows both fail in states reachable with `pop`. -/
theorem get_total_nice_ops :
    ∀ (ops : List (NiceOp Int)) (i : Int),
      0 ≤ i → i < (runNice ops (SLL.empty Int)).length →
      (runNice ops (SLL.empty Int)).get i ≠ none ∧
      ((SLL.getAux (runNice ops (SLL.empty Int)).heap
          (runNice ops (SLL.empty Int)).head i.toNat).2 : Int) = i := by
  intro ops i h0 hi
  obtain ⟨C, hC, hnodup, hb, hlen, _⟩ := niceInv_runNice ops _ (niceInv_empty Int)
  obtain ⟨hget, hsteps⟩ := get_heapChain hC hlen h0 hi
  constructor
  · rw [hget]
    have hk : i.toNat < C.length := by omega
    simp [List.getElem?_eq_getElem hk]
  · rw [hsteps]; omega

/-- Witness for the amended C10 on `push(1); push(2)` at index `1`. -/
theorem get_total_nice_ops_witness :
    (0 : Int) ≤ 1 ∧
    (1 : Int) < (runNice [NiceOp.push 1, NiceOp.push 2] (SLL.empty Int)).length ∧
    (runNice [NiceOp.push 1, NiceOp.push 2] (SLL.empty Int)).get 1 ≠ none :=
  ⟨by decide, by decide,
    (get_total_nice_ops [NiceOp.push 1, NiceOp.push 2] 1 (by decide) (by decide)).1⟩

/-! ## Lemmas about the scan loop of `pop` -/

theorem popScan_no_hit {α : Type u} {heap : List (SNode α)} {tgt : Nat} :
    ∀ {C : List Nat} {c fuel : Nat},
      HeapChain heap (some c) C → (∀ x ∈ C, nextOf heap x ≠ some tgt) →
      C.length ≤ fuel → SLL.popScan heap tgt c fuel = C.getLast? := by
  intro C
  induction C with
  | nil => intro c fuel h _ _; exact absurd h (by simp [heapChain_nil])
  | cons x C ih =>
    intro c fuel hC hno hf
    obtain ⟨hx, hrest⟩ := hC
    cases hx
    cases fuel with
    | zero => exact absurd hf (by simp)
    | succ f =>
      cases C with
      | nil =>
        have hnone : nextOf heap x = none := hrest
        simp [SLL.popScan, hnone]
      | cons y C' =>
        have hy : nextOf heap x = some y := hrest.1
        rw [hy] at hrest
        have hyne : y ≠ tgt := by
          intro hE
          exact hno x (List.mem_cons_self x _) (by rw [hy, hE])
        rw [List.getLast?_cons_cons]
        simp only [SLL.popScan, hy, if_neg hyne]
        exact ih hrest (fun z hz => hno z (List.mem_cons_of_mem x hz)) (by simpa using hf)

theorem popScan_to_pred {α : Type u} {heap : List (SNode α)} {tgt : Nat} :
    ∀ {C : List Nat} {c fuel : Nat},
      HeapChain heap (some c) (C ++ [tgt]) → (C ++ [tgt]).Nodup → C ≠ [] →
      C.length ≤ fuel → SLL.popScan heap tgt c fuel = C.getLast? := by
  intro C
  induction C with
  | nil => intro c fuel _ _ h _; exact absurd rfl h
  | cons x C ih =>
    intro c fuel hC hnodup _ hf
    obtain ⟨hx, hrest⟩ := hC
    cases hx
    cases fuel with
    | zero => exact absurd hf (by simp)
    | succ f =>
      cases C with
      | nil =>
        have hnext : nextOf heap x = some tgt := hrest.1
        simp [SLL.popScan, hnext]
      | cons y C' =>
        have hy : nextOf heap x = some y := hrest.1
        rw [hy] at hrest
        have hyne : y ≠ tgt := by
          intro hE
          have hdisj := (List.nodup_append.1 (List.nodup_cons.1 hnodup).2).2.2
          exact hdisj (List.mem_cons_self y C') (by simp [hE])
        rw [List.getLast?_cons_cons]
        simp only [SLL.popScan, hy, if_neg hyne]
        exact ih hrest (List.nodup_cons.1 hnodup).2 (by simp) (by simpa using hf)

theorem toArray_eq_filterMap {α : Type u} {s : SLL α} {C : List Nat}
    (h : SLL.walk s.heap s.head (s.heap.length + 1) = some C) :
    s.toArray = C.filterMap (dataOf s.heap) := by
  unfold SLL.toArray SLL.chainOf
  rw [h]
  rfl

/-! ## Claim C8 -/

/-- Well-formedness needed by the push/pop round trip: the head chain is
duplicate-free with valid ids, an absent head entails `#length = 0`, and a
present tail is a valid id that is either off the head chain (dangling, as
`pop` leaves it) or the chain's last node.  The API can escape it: `remove(0)`
advances the head without the single-node cleanup, so
`push(1); push(2); push(3); pop(); push(4); remove(0); remove(0)` reaches a
state with an absent head but `#length = 1` (see `sllNilHead`), where the
push/pop round trip genuinely fails. -/
def PopWF {α : Type u} (s : SLL α) : Prop :=
  ∃ C : List Nat, HeapChain s.heap s.head C ∧ C.Nodup ∧
    (∀ c ∈ C, c < s.heap.length) ∧
    (s.head = none → s.length = 0) ∧
    (∀ t, s.tail = some t → t < s.heap.length ∧ (t ∉ C ∨ C.getLast? = some t))

/-- The reachable state after
`push(1); push(2); push(3); pop(); push(4); remove(0); remove(0)`: the two
`remove(0)` calls walk the head off the two-node chain that `pop` left, so
the head is absent while `#length` is still `1` and `#tail` dangles on the
unreachable node `3`. -/
def sllNilHead : SLL Int :=
  ((((((((SLL.empty Int).push 1).push 2).push 3).pop).2.push 4).remove 0).2.remove 0).2

theorem push_shape_nn {α : Type u} {s : SLL α} (d : α) (hh : s.head = none)
    (ht : s.tail = none) :
    s.push d = ⟨s.heap ++ [⟨d, none⟩], some s.heap.length, some s.heap.length,
      s.length + 1⟩ := by
  simp [SLL.push, hh, ht]

theorem push_shape_ns {α : Type u} {s : SLL α} {t : Nat} (d : α) (hh : s.head = none)
    (ht : s.tail = some t) :
    s.push d = ⟨setNext (s.heap ++ [⟨d, none⟩]) t (some s.heap.length),
      some s.heap.length, some s.heap.length, s.length + 1⟩ := by
  simp [SLL.push, hh, ht]

theorem push_shape_sn {α : Type u} {s : SLL α} {h : Nat} (d : α) (hh : s.head = some h)
    (ht : s.tail = none) :
    s.push d = ⟨s.heap ++ [⟨d, none⟩], some h, some s.heap.length, s.length + 1⟩ := by
  simp [SLL.push, hh, ht]

theorem push_shape_ss {α : Type u} {s : SLL α} {h t : Nat} (d : α) (hh : s.head = some h)
    (ht : s.tail = some t) :
    s.push d = ⟨setNext (s.heap ++ [⟨d, none⟩]) t (some s.heap.length), some h,
      some s.heap.length, s.length + 1⟩ := by
  simp [SLL.push, hh, ht]

theorem toArray_head_none {α : Type u} {s : SLL α} (hh : s.head = none) :
    s.toArray = [] := by
  have hw : SLL.walk s.heap s.head (s.heap.length + 1) = some [] := by rw [hh]; rfl
  rw [toArray_eq_filterMap hw]
  rfl

theorem pop_single_shape {α : Type u} (heap : List (SNode α)) {h t : Nat} {len : Int}
    (hht : h = t) (hlen : len = 1) :
    SLL.pop ⟨heap, some h, some t, len⟩ = (some t, ⟨heap, none, none, 0⟩) := by
  simp [SLL.pop, hht, hlen]

theorem pop_scan_shape {α : Type u} (heap : List (SNode α)) {h t : Nat} {len : Int}
    (hne : ¬(h = t ∧ len = 1)) {nt : Nat}
    (hscan : SLL.popScan heap t h (heap.length + 1) = some nt) :
    SLL.pop ⟨heap, some h, some t, len⟩ =
      (some t, ⟨setNext heap nt none, some h, some t, len - 1⟩) := by
  simp only [SLL.pop]
  rw [if_neg hne, hscan]

/-- Claim C8, amended (proved): on every list state satisfying `PopWF`
(duplicate-free valid head chain, absent head entails `#length = 0`, and a
present tail valid and either off the chain or its last node) and every value
`v`, after `push(v)` the list is non-empty, `pop()` returns a node whose data
equals `v`, and afterwards `toArray()` equals the sequence `toArray()`
produced before the push.  The claim as stated (for every list state) is
refuted by `pop_push_inverse_counterexample`: on the reachable state
`sllNilHead` (absent head, `#length = 1`) the round trip leaves
`toArray() = [9]` instead of the prior `[]`, because `pop`'s single-node
branch requires `length === 1` and is skipped. -/
theorem pop_push_inverse :
    ∀ (s : SLL Int) (v : Int), PopWF s →
      (s.push v).head ≠ none ∧
      ∃ rid s2, (s.push v).pop = (some rid, s2) ∧
        dataOf s2.heap rid = some v ∧ s2.toArray = s.toArray := by
  intro s v hWF
  obtain ⟨C, hC, hnodup, hb, hhead0, htail0⟩ := hWF
  have hCb : C.length ≤ s.heap.length := nodup_bounded_length_le hnodup hb
  cases C with
  | nil =>
    have hh : s.head = none := hC
    have hlen0 : s.length = 0 := hhead0 hh
    have htoA : s.toArray = [] := toArray_head_none hh
    cases ht : s.tail with
    | none =>
      rw [push_shape_nn v hh ht]
      refine ⟨by simp, s.heap.length,
        ⟨s.heap ++ [(⟨v, none⟩ : SNode Int)], none, none, 0⟩,
        pop_single_shape _ rfl (by omega), dataOf_concat_self s.heap v none, ?_⟩
      rw [htoA]
      exact toArray_head_none rfl
    | some t =>
      obtain ⟨htb, -⟩ := htail0 t ht
      rw [push_shape_ns v hh ht]
      refine ⟨by simp, s.heap.length,
        ⟨setNext (s.heap ++ [(⟨v, none⟩ : SNode Int)]) t (some s.heap.length), none, none, 0⟩,
        pop_single_shape _ rfl (by omega), ?_, ?_⟩
      · rw [dataOf_setNext]
        exact dataOf_concat_self s.heap v none
      · rw [htoA]
        exact toArray_head_none rfl
  | cons c C0 =>
    have hh : s.head = some c := hC.1
    have hcb : c < s.heap.length := hb c (List.mem_cons_self c C0)
    have hcn : c ≠ s.heap.length := Nat.ne_of_lt hcb
    have hnn : s.heap.length ∉ c :: C0 := fun hm => lt_irrefl _ (hb _ hm)
    have hC1 : HeapChain (s.heap ++ [(⟨v, none⟩ : SNode Int)]) (some c) (c :: C0) := by
      have := heapChain_append (l := [(⟨v, none⟩ : SNode Int)]) hC hb
      rwa [hh] at this
    have hCb0 : C0.length + 1 ≤ s.heap.length := by simpa using hCb
    have htoA : s.toArray = (c :: C0).filterMap (dataOf s.heap) :=
      toArray_eq_filterMap (walk_of_heapChain hC (by omega))
    have hlastq : (c :: C0).getLast? = some ((c :: C0).getLast (by simp)) :=
      List.getLast?_eq_getLast _ (by simp)
    have hcond : ¬(c = s.heap.length ∧ s.length + 1 = 1) := fun hE => hcn hE.1
    cases ht : s.tail with
    | none =>
      rw [push_shape_sn v hh ht]
      have hnohit : ∀ x ∈ c :: C0,
          nextOf (s.heap ++ [(⟨v, none⟩ : SNode Int)]) x ≠ some s.heap.length := by
        intro x hx hE
        rcases heapChain_next_mem hC1 x hx with h1 | ⟨y, hy, h2⟩
        · rw [h1] at hE; exact Option.noConfusion hE
        · rw [h2] at hE
          injection hE with hE
          exact absurd (hE ▸ hb y hy) (lt_irrefl _)
      have hscan : SLL.popScan (s.heap ++ [(⟨v, none⟩ : SNode Int)]) s.heap.length c
          ((s.heap ++ [(⟨v, none⟩ : SNode Int)]).length + 1) =
          some ((c :: C0).getLast (by simp)) := by
        rw [popScan_no_hit hC1 hnohit (by simp; omega)]
        exact hlastq
      have hnoop : setNext (s.heap ++ [(⟨v, none⟩ : SNode Int)]) ((c :: C0).getLast (by simp)) none =
          s.heap ++ [(⟨v, none⟩ : SNode Int)] :=
        setNext_noop (heapChain_getLast?_next hC1 hlastq)
      refine ⟨by simp, s.heap.length,
        (⟨s.heap ++ [(⟨v, none⟩ : SNode Int)], some c, some s.heap.length, s.length + 1 - 1⟩ : SLL Int),
        ?_, ?_, ?_⟩
      · rw [pop_scan_shape _ hcond hscan, hnoop]
      · exact dataOf_concat_self s.heap v none
      · have hw2 : SLL.walk (s.heap ++ [(⟨v, none⟩ : SNode Int)]) (some c)
            ((s.heap ++ [(⟨v, none⟩ : SNode Int)]).length + 1) = some (c :: C0) :=
          walk_of_heapChain hC1 (by simp; omega)
        rw [toArray_eq_filterMap hw2, htoA]
        exact List.filterMap_congr (fun x hx => dataOf_append s.heap _ (hb x hx))
    | some t =>
      obtain ⟨htb, htcase⟩ := htail0 t ht
      rw [push_shape_ss v hh ht]
      rcases htcase with htnot | htlast
      · -- the tail dangles off the head chain
        have hC2 : HeapChain (setNext (s.heap ++ [(⟨v, none⟩ : SNode Int)]) t (some s.heap.length))
            (some c) (c :: C0) := heapChain_setNext_not_mem hC1 htnot
        have hnohit : ∀ x ∈ c :: C0,
            nextOf (setNext (s.heap ++ [(⟨v, none⟩ : SNode Int)]) t (some s.heap.length)) x ≠
              some s.heap.length := by
          intro x hx hE
          rcases heapChain_next_mem hC2 x hx with h1 | ⟨y, hy, h2⟩
          · rw [h1] at hE; exact Option.noConfusion hE
          · rw [h2] at hE
            injection hE with hE
            exact absurd (hE ▸ hb y hy) (lt_irrefl _)
        have hscan : SLL.popScan (setNext (s.heap ++ [(⟨v, none⟩ : SNode Int)]) t (some s.heap.length))
            s.heap.length c
            ((setNext (s.heap ++ [(⟨v, none⟩ : SNode Int)]) t (some s.heap.length)).length + 1) =
            some ((c :: C0).getLast (by simp)) := by
          rw [popScan_no_hit hC2 hnohit (by simp [length_setNext]; omega)]
          exact hlastq
        have hnoop : setNext (setNext (s.heap ++ [(⟨v, none⟩ : SNode Int)]) t (some s.heap.length))
            ((c :: C0).getLast (by simp)) none =
            setNext (s.heap ++ [(⟨v, none⟩ : SNode Int)]) t (some s.heap.length) :=
          setNext_noop (heapChain_getLast?_next hC2 hlastq)
        refine ⟨by simp, s.heap.length,
          (⟨setNext (s.heap ++ [(⟨v, none⟩ : SNode Int)]) t (some s.heap.length), some c,
            some s.heap.length, s.length + 1 - 1⟩ : SLL Int), ?_, ?_, ?_⟩
        · rw [pop_scan_shape _ hcond hscan, hnoop]
        · rw [dataOf_setNext]
          exact dataOf_concat_self s.heap v none
        · have hw2 : SLL.walk (setNext (s.heap ++ [(⟨v, none⟩ : SNode Int)]) t (some s.heap.length))
              (some c)
              ((setNext (s.heap ++ [(⟨v, none⟩ : SNode Int)]) t (some s.heap.length)).length + 1) =
              some (c :: C0) :=
            walk_of_heapChain hC2 (by simp [length_setNext]; omega)
          rw [toArray_eq_filterMap hw2, htoA]
          refine List.filterMap_congr (fun x hx => ?_)
          rw [dataOf_setNext]
          exact dataOf_append s.heap _ (hb x hx)
      · -- the tail is the last node of the head chain
        have htb1 : t < (s.heap ++ [(⟨v, none⟩ : SNode Int)]).length := by simp; omega
        have hC2 : HeapChain (setNext (s.heap ++ [(⟨v, none⟩ : SNode Int)]) t (some s.heap.length))
            (some c) ((c :: C0) ++ [s.heap.length]) :=
          heapChain_snoc hC1 hnodup htlast htb1 hnn (nextOf_concat_self s.heap v none)
        have hnodup2 : ((c :: C0) ++ [s.heap.length]).Nodup := by
          simpa [List.concat_eq_append] using hnodup.concat hnn
        have hscan : SLL.popScan (setNext (s.heap ++ [(⟨v, none⟩ : SNode Int)]) t (some s.heap.length))
            s.heap.length c
            ((setNext (s.heap ++ [(⟨v, none⟩ : SNode Int)]) t (some s.heap.length)).length + 1) =
            some t := by
          rw [popScan_to_pred hC2 hnodup2 (by simp) (by simp [length_setNext]; omega)]
          rw [htlast]
        have hnoop : setNext (setNext (s.heap ++ [(⟨v, none⟩ : SNode Int)]) t (some s.heap.length))
            t none = s.heap ++ [(⟨v, none⟩ : SNode Int)] := by
          rw [setNext_setNext]
          exact setNext_noop (heapChain_getLast?_next hC1 htlast)
        refine ⟨by simp, s.heap.length,
          (⟨s.heap ++ [(⟨v, none⟩ : SNode Int)], some c, some s.heap.length, s.length + 1 - 1⟩ : SLL Int),
          ?_, ?_, ?_⟩
        · rw [pop_scan_shape _ hcond hscan, hnoop]
        · exact dataOf_concat_self s.heap v none
        · have hw2 : SLL.walk (s.heap ++ [(⟨v, none⟩ : SNode Int)]) (some c)
              ((s.heap ++ [(⟨v, none⟩ : SNode Int)]).length + 1) = some (c :: C0) :=
            walk_of_heapChain hC1 (by simp; omega)
          rw [toArray_eq_filterMap hw2, htoA]
          exact List.filterMap_congr (fun x hx => dataOf_append s.heap _ (hb x hx))

/-- Witness for the amended C8 at the dangling-tail state reached by
`push(1); push(2); push(3); pop(); push(4); push(5)`: the state is
well-formed in the sense of `PopWF`, and pushing `9` then popping returns a
node with data `9` and restores `toArray() = [1, 2]`. -/
theorem pop_push_inverse_witness :
    PopWF sllDangle ∧
    (sllDangle.push 9).head ≠ none ∧
    ∃ rid s2, (sllDangle.push 9).pop = (some rid, s2) ∧
      dataOf s2.heap rid = some 9 ∧ s2.toArray = sllDangle.toArray := by
  have hWF : PopWF sllDangle := by
    refine ⟨[0, 1], ⟨rfl, rfl, rfl⟩, by decide, by decide, ?_, ?_⟩
    · intro h; exact absurd h (by decide)
    · intro t ht
      have h4 : sllDangle.tail = some 4 := rfl
      rw [h4] at ht
      cases ht
      exact ⟨by decide, Or.inl (by decide)⟩
  exact ⟨hWF, pop_push_inverse sllDangle 9 hWF⟩

/-- Claim C8 is false as stated: on the reachable state `sllNilHead` (absent
head, `#length = 1`, dangling tail) `toArray()` is `[]`; after `push(9)`,
`pop()` does return the node with data `9`, but its single-node branch needs
`length === 1` (the length is `2` here), so the head is left on the new node
and `toArray()` afterwards is `[9]`, not the prior `[]`. -/
theorem pop_push_inverse_counterexample :
    sllNilHead.head = none ∧ sllNilHead.length = 1 ∧
    sllNilHead.toArray = [] ∧
    ((sllNilHead.push 9).pop).1 = some 4 ∧
    dataOf ((sllNilHead.push 9).pop).2.heap 4 = some 9 ∧
    ((sllNilHead.push 9).pop).2.toArray = [9] ∧
    ((sllNilHead.push 9).pop).2.toArray ≠ sllNilHead.toArray := by decide
